import Mathlib

/-!
Verification development for the `torrentmatch` program
(`src/torrentmatch/tm.py`).

The Python code is shallowly embedded: paths are lists of segments
(`FPath`), a filesystem is an association list from paths to byte
contents, torrent manifests are lists of `(path, length)` pairs, and
each Python function used by the claims (`is_ignored`, `normalize_path`,
`quick_copy`, `name_similarity`, `compare_torrents_with_media`'s folder
statistics and matching, and `collect_torrents_and_media`'s per-entry
candidate selection) becomes an executable Lean definition mirroring
the source line by line.  External library routines the source calls
(`unicodedata.normalize`, `difflib.SequenceMatcher`, `str.lower`) are
modelled from the spec's description of them, as noted on each such
definition.
-/

namespace TorrentMatch

/-- A filesystem path, as its ordered list of segments
(`pathlib.Path.parts`, without the root anchor). -/
abbrev FPath := List String

/-- File contents as a list of bytes; only the length (`st_size`) is
ever inspected by the program, the bytes let us state that contents are
or are not overwritten. -/
abbrev Content := List Nat

/-- The deny-list of exact junk filenames (`ignored` in `tm.py`). -/
def ignoredNames : List String :=
  [".DS_Store", "Thumbs.db", "@eaDir", "desktop.ini", "ehthumbs.db", "._.DS_Store"]

/-- The deny-list of junk filename endings (`ignored_suffixes` in `tm.py`). -/
def ignoredEndings : List String :=
  ["@SynoEAStream", "@SynoResource"]

/-- `is_ignored(filename)` from `tm.py`: exact deny-list membership, or
one of the denied endings. -/
def is_ignored (filename : String) : Bool :=
  ignoredNames.contains filename ||
    ignoredEndings.any (fun suf => suf.data.isSuffixOf filename.data)

/-- Modelled from the spec: Unicode canonical composition (NFC) of one
path segment.  The source delegates this to `unicodedata.normalize("NFC", part)`,
an external library routine not in this repository.  We model the fragment
exercised here: the decomposed pair LATIN SMALL LETTER E (U+0065) followed
by COMBINING ACUTE ACCENT (U+0301) composes to the precomposed U+00E9;
every other character passes through unchanged. -/
def nfcChars : List Char → List Char
  | c :: m :: rest =>
    if c = 'e' && m = Char.ofNat 769 then Char.ofNat 233 :: nfcChars rest
    else c :: nfcChars (m :: rest)
  | l => l

/-- NFC normalization of one path segment (see `nfcChars`). -/
def nfcStr (s : String) : String := ⟨nfcChars s.data⟩

/-- `normalize_path(path)` from `tm.py`: NFC-normalize every segment and
reassemble the path. -/
def normalize_path (p : FPath) : FPath := p.map nfcStr

/-- `Path.name`: the final path segment (empty for the empty path). -/
def pathName (p : FPath) : String := (p.getLast?).getD ("")

/-- `files_in_torrent(torrent)` from `tm.py`: the normalized manifest
paths of a torrent (the manifest is the decoder's list of
`(path, length)` pairs). -/
def files_in_torrent (files : List (FPath × Nat)) : List FPath :=
  files.map (fun fp => normalize_path fp.1)

/-- `get_media_files(media_dir)` from `tm.py`: the normalized
root-relative paths of the files found by the filesystem walk. -/
def get_media_files (walk : List FPath) : List FPath :=
  walk.map normalize_path

/-- The per-entry test of `report_torrent_media_mismatches` (`tm.py`
lines 112-117): a manifest path is reported missing when its normalized
form is not among the normalized walk results and its name is not
ignored. -/
def report_missing_for (tf : FPath) (walk : List FPath) : Bool :=
  !((get_media_files walk).contains (normalize_path tf)) &&
    !(is_ignored (pathName (normalize_path tf)))

/-- Modelled from the spec: Python `str.lower`, an external builtin; the
ASCII fragment (sufficient for every name compared here) is modelled,
other characters pass through. -/
def strLower (s : String) : String := ⟨s.data.map Char.toLower⟩

/-- The collect-time per-entry exact filename comparison
(`tm.py` line 324): `lf.name.lower() == tf_path.name.lower()`.
Note it compares the raw names; no NFC normalization is applied. -/
def exact_name_match (lfName tfName : String) : Bool :=
  strLower lfName == strLower tfName

/-- A filename in NFC form: precomposed U+00E9. -/
def eNFC : String := ⟨[Char.ofNat 233, 'x']⟩

/-- The same filename in NFD form: `e` followed by COMBINING ACUTE ACCENT. -/
def eNFD : String := ⟨['e', Char.ofNat 769, 'x']⟩

/-! ## The safe-copy engine (`quick_copy`, `tm.py` lines 65-92) -/

/-- A filesystem: an association list from paths to contents.  Paths are
taken already resolved (`Path.resolve` is the identity in this model:
no symlinks or `..` segments). -/
abbrev FS := List (FPath × Content)

/-- Look a path up in the filesystem (`exists()` / `stat()`). -/
def fsLookup : FS → FPath → Option Content
  | [], _ => none
  | e :: rest, p => if e.1 = p then some e.2 else fsLookup rest p

/-- Write contents to a path (`shutil.copy2`'s effect on the
destination), replacing any previous entry. -/
def fsWrite : FS → FPath → Content → FS
  | [], p, c => [(p, c)]
  | e :: rest, p, c => if e.1 = p then (p, c) :: rest else e :: fsWrite rest p c

/-- Python `str.removesuffix`: drop `suf` from the end of `s` when it is
a suffix, otherwise return `s` unchanged. -/
def strRemoveSuffix (s suf : String) : String :=
  if suf.data.isSuffixOf s.data then ⟨s.data.take (s.data.length - suf.data.length)⟩ else s

/-- The alternate destination name built by `quick_copy` in no-overwrite
mode (`tm.py` lines 83-85):
`dest.name.removesuffix('.torrent').removesuffix('.added')` followed by
`_{src.stat().st_size}.torrent`. -/
def rename_name (destName : String) (srcSize : Nat) : String :=
  strRemoveSuffix (strRemoveSuffix destName (".torrent")) (".added") ++ ("_") ++
    toString srcSize ++ (".torrent")

/-- `Path.with_name`: replace the final segment of a path. -/
def withName (p : FPath) (n : String) : FPath := p.dropLast ++ [n]

/-- What one `quick_copy` call did.  Exceptions raised by the filesystem
(vanished source, permission, disk full) are caught by the function's
`try/except` and reported as `errorLogged src dest`, mirroring the log
line `quick_copy failed for {src} → {dest}`. -/
inductive CopyOutcome where
  | sameFile
  | skippedSameSize
  | copied (dest : FPath)
  | errorLogged (src dest : FPath)
deriving DecidableEq

/-- The final `shutil.copy2(src, dest)` step of `quick_copy`.  A missing
source raises (caught: `errorLogged`); `copyOk = false` injects any
other filesystem error during the transfer (permission, disk full),
likewise caught. -/
def copyData (fs : FS) (src dest : FPath) (copyOk : Bool) : FS × CopyOutcome :=
  match fsLookup fs src with
  | none => (fs, CopyOutcome.errorLogged src dest)
  | some sc =>
    if copyOk then (fsWrite fs dest sc, CopyOutcome.copied dest)
    else (fs, CopyOutcome.errorLogged src dest)

/-- `quick_copy(src, dest, overwrite)` from `tm.py`, line by line:
return if source and destination resolve to the same location; in
overwrite mode skip when the destination exists with the source's size;
in no-overwrite mode redirect to the `rename_name` sibling when the
destination exists with a different size; then create parents (implicit
here) and copy.  Reading the size of a missing source raises and is
caught (`errorLogged`). -/
def quick_copy (fs : FS) (src dest : FPath) (overwrite copyOk : Bool) : FS × CopyOutcome :=
  if src = dest then (fs, CopyOutcome.sameFile)
  else
    match fsLookup fs dest with
    | some dc =>
      match fsLookup fs src with
      | none => (fs, CopyOutcome.errorLogged src dest)
      | some sc =>
        if overwrite then
          if dc.length = sc.length then (fs, CopyOutcome.skippedSameSize)
          else copyData fs src dest copyOk
        else
          if dc.length ≠ sc.length then
            copyData fs src (withName dest (rename_name (pathName dest) sc.length)) copyOk
          else copyData fs src dest copyOk
    | none => copyData fs src dest copyOk

/-! ## The media index and matcher (`compare_torrents_with_media`, `tm.py` lines 141-239) -/

/-- A regular file found by the media walk: its root-relative path and
its byte size (`stat().st_size`). -/
structure MFile where
  path : FPath
  size : Nat
deriving DecidableEq

/-- `Path.name` of a media file. -/
def fname (f : MFile) : String := pathName f.path

/-- The state of the media root when it is walked: its regular files and
its directories, both as root-relative paths.  `dirs` models the
directories yielded by `media_dir.rglob("*")`, which enumerates strict
descendants of the root only — the root itself (the empty relative path
`[]`) is never among them. -/
structure MediaTree where
  files : List MFile
  dirs : List FPath
deriving DecidableEq

/-- `folder` is a strictly proper ancestor of `p`, i.e. `p` is found by
`folder.rglob("*")`. -/
def leadsTo : FPath → FPath → Bool
  | [], _ :: _ => true
  | a :: as, b :: bs => (a == b) && leadsTo as bs
  | _, _ => false

/-- The file filter of the folder-statistics loop (`tm.py` line 159):
the file lies in the folder's recursive subtree and is not ignored. -/
def keepFile (folder : FPath) (f : MFile) : Bool :=
  leadsTo folder f.path && !(is_ignored (fname f))

/-- The per-folder accumulation of `tm.py` lines 156-164: total size and
count of the non-ignored regular files in the folder's full recursive
subtree. -/
def folderAgg (files : List MFile) (folder : FPath) : Nat × Nat :=
  files.foldl
    (fun acc f => if keepFile folder f then (acc.1 + f.size, acc.2 + 1) else acc)
    (0, 0)

/-- `folder_stats` from `tm.py` lines 154-166: every walked directory
with a positive non-ignored file count, paired with its aggregate size
and file count. -/
def folder_stats (t : MediaTree) : List (FPath × Nat × Nat) :=
  t.dirs.filterMap (fun d =>
    let p := folderAgg t.files d
    if 0 < p.2 then some (d, p.1, p.2) else none)

/-- `abs(a - b)` on Python integers. -/
def sizeDiff (a b : Nat) : Nat := Int.natAbs ((a : Int) - (b : Int))

/-- Sum of the manifest entry lengths (`sum(size for _, size in torrent_files)`). -/
def total_length (entries : List (FPath × Nat)) : Nat := (entries.map Prod.snd).sum

/-- One insertion step of building `media_by_size` (a `defaultdict(list)`
keyed by size, values appended in walk order). -/
def addToGroups (groups : List (Nat × List MFile)) (f : MFile) : List (Nat × List MFile) :=
  match groups with
  | [] => [(f.size, [f])]
  | g :: rest => if g.1 = f.size then (g.1, g.2 ++ [f]) :: rest else g :: addToGroups rest f

/-- `media_by_size` from `tm.py` lines 170-180: group the non-ignored
media files by exact byte size. -/
def media_by_size (files : List MFile) : List (Nat × List MFile) :=
  (files.filter (fun f => !(is_ignored (fname f)))).foldl addToGroups []

/-- The single-file-torrent candidate list of `tm.py` lines 211-216:
all files from every size group within `tol` of the entry's length. -/
def single_matches (t : MediaTree) (fileSize tol : Nat) : List MFile :=
  (media_by_size t.files).foldr
    (fun g acc => if sizeDiff g.1 fileSize ≤ tol then g.2 ++ acc else acc) []

/-- The multi-file-torrent candidate list of `tm.py` lines 226-231:
folders from `folder_stats` whose aggregate size is within `tol` of the
manifest total and whose file count equals the entry count exactly. -/
def multi_matches (t : MediaTree) (entries : List (FPath × Nat)) (tol : Nat) : List FPath :=
  (folder_stats t).filterMap (fun e =>
    if sizeDiff e.2.1 (total_length entries) ≤ tol ∧ e.2.2 = entries.length then some e.1
    else none)

/-- The candidate locations the matcher produces for one torrent:
individual files for a single-entry manifest, folders for a multi-entry
manifest; an empty manifest is skipped. -/
inductive MatchResult where
  | noEntries
  | fileMatches (fs : List MFile)
  | folderMatches (ds : List FPath)
deriving DecidableEq

/-- The per-torrent branch of `compare_torrents_with_media`
(`tm.py` lines 194-232). -/
def match_torrent (t : MediaTree) (entries : List (FPath × Nat)) (tol : Nat) : MatchResult :=
  match entries with
  | [] => MatchResult.noEntries
  | [e] => MatchResult.fileMatches (single_matches t e.2 tol)
  | _ => MatchResult.folderMatches (multi_matches t entries tol)

/-! ## Per-entry candidate gathering and resolution
(`collect_torrents_and_media`, `tm.py` lines 296-348) -/

/-- The `size_matches` gathering of `tm.py` lines 302-311: for every
matched folder, every regular file in its recursive subtree with exactly
the entry's length.  Note there is no `is_ignored` filter here. -/
def size_matches_for (t : MediaTree) (matched : List FPath) (tfLength : Nat) : List MFile :=
  matched.foldl
    (fun acc mp => acc ++ t.files.filter (fun lf => leadsTo mp lf.path && lf.size == tfLength))
    []

/-- `pathlib.PurePath.stem`: the name with its final extension removed;
a leading dot or a trailing dot does not count as an extension
(`0 < i < len(name) - 1` around the last dot's index `i`). -/
def lastDotIdx (cs : List Char) : Option Nat :=
  (List.range cs.length).foldl
    (fun acc i => if cs.getD i (' ') = ('.') then some i else acc) none

/-- See `lastDotIdx`; the stem of a filename's character list. -/
def stemChars (cs : List Char) : List Char :=
  match lastDotIdx cs with
  | some i => if 0 < i ∧ i < cs.length - 1 then cs.take i else cs
  | none => cs

/-- The filename preprocessing of `name_similarity` (`tm.py` lines
97-98): take the stem, lowercase it, replace underscores with spaces. -/
def normName (s : String) : List Char :=
  (stemChars s.data).map (fun c =>
    let l := Char.toLower c
    if l = ('_') then (' ') else l)

/-- Length of the longest common prefix of two character lists. -/
def commonPrefixLen : List Char → List Char → Nat
  | a :: as, b :: bs => if a = b then commonPrefixLen as bs + 1 else 0
  | _, _ => 0

/-- Modelled from the spec: `difflib.SequenceMatcher.find_longest_match`
(an external library routine).  Returns `(i, j, k)`: the longest block
`a[i:i+k] = b[j:j+k]`, preferring the earliest `i` and then the earliest
`j` among maximal blocks (candidates are scanned in lexicographic order
and replaced only on a strictly longer match; seeding with the `(0,0)`
candidate is equivalent to starting from `(0,0,0)`).  The junk
heuristics, which the spec does not describe, are not modelled. -/
def longest_match (a b : List Char) : Nat × Nat × Nat :=
  ((List.range a.length).product (List.range b.length)).foldl
    (fun best p =>
      let k := commonPrefixLen (a.drop p.1) (b.drop p.2)
      if best.2.2 < k then (p.1, p.2, k) else best)
    (0, 0, commonPrefixLen a b)

/-- Modelled from the spec: the total matched-character count of
`difflib.SequenceMatcher.get_matching_blocks` — recursively take the
longest matching block and recurse on what lies to its left and to its
right.  The fuel argument (any value at least `a.length + b.length`
suffices) only makes the recursion structural. -/
def totalMatchesFuel : Nat → List Char → List Char → Nat
  | 0, _, _ => 0
  | fuel + 1, a, b =>
    let m := longest_match a b
    if m.2.2 = 0 then 0
    else
      totalMatchesFuel fuel (a.take m.1) (b.take m.2.1) + m.2.2 +
        totalMatchesFuel fuel (a.drop (m.1 + m.2.2)) (b.drop (m.2.1 + m.2.2))

/-- See `totalMatchesFuel`; the total matched-character count `M`. -/
def totalMatches (a b : List Char) : Nat :=
  totalMatchesFuel (a.length + b.length + 1) a b

/-- Modelled from the spec: `difflib.SequenceMatcher.ratio`, the
matching-block ratio `2*M / T` where `T` is the total length of both
inputs (`1` when both are empty), computed exactly in `ℚ`. -/
def seq_ratio (a b : List Char) : ℚ :=
  if a.length + b.length = 0 then 1
  else (2 * (totalMatches a b : ℚ)) / ((a.length : ℚ) + (b.length : ℚ))

/-- `name_similarity(a, b)` from `tm.py` lines 95-99: the sequence-match
ratio of the two preprocessed filenames. -/
def name_similarity (a b : String) : ℚ :=
  seq_ratio (normName a) (normName b)

/-- The element of a scored candidate list that a stable descending sort
on the score places first: the first element attaining the maximal
score.  Models `scores.sort(key=..., reverse=True)` followed by
`scores[0]` (`tm.py` lines 332-333); Python's sort is stable, so ties
keep input order. -/
def argmaxFirst : List (MFile × ℚ) → Option (MFile × ℚ)
  | [] => none
  | p :: rest =>
    match argmaxFirst rest with
    | none => some p
    | some q => if p.2 < q.2 then some q else some p

/-- Whether a candidate's name equals the entry's name
case-insensitively (`tm.py` line 324:
`lf.name.lower() == tf_path.name.lower()`). -/
def isExactFor (tfName : String) (lf : MFile) : Bool :=
  strLower (fname lf) == strLower tfName

/-- The candidate selection of `tm.py` lines 317-337 for one manifest
entry: if any candidate's name equals the entry's name case-insensitively,
the first such candidate; otherwise the best fuzzy match when its score
exceeds `0.55`, else the first candidate. -/
def pick_candidate (tfName : String) (ms : List MFile) : Option MFile :=
  match ms with
  | [] => none
  | m0 :: _ =>
    match ms.filter (isExactFor tfName) with
    | e :: _ => some e
    | [] =>
      match argmaxFirst (ms.map (fun lf => (lf, name_similarity tfName (fname lf)))) with
      | some q => some (if (11 : ℚ) / 20 < q.2 then q.1 else m0)
      | none => some m0

/-- The per-entry resolution rule exactly as claim C4 words it (the
spec-side definition, used only to compare with `pick_candidate`):
choose the unique case-insensitive exact name match when exactly one
exists; otherwise fall through to the fuzzy scoring. -/
def pick_candidate_claimed (tfName : String) (ms : List MFile) : Option MFile :=
  match ms with
  | [] => none
  | m0 :: _ =>
    match ms.filter (isExactFor tfName) with
    | [e] => some e
    | _ =>
      match argmaxFirst (ms.map (fun lf => (lf, name_similarity tfName (fname lf)))) with
      | some q => some (if (11 : ℚ) / 20 < q.2 then q.1 else m0)
      | none => some m0

/-! ## Concrete instances used by the individual claims -/

/-- A source file for the `quick_copy` idempotence scenario. -/
def c2src : FPath := [("s")]

/-- A destination path for the `quick_copy` idempotence scenario. -/
def c2dest : FPath := [("d")]

/-- A filesystem holding only the source file. -/
def c2fs : FS := [(c2src, [0, 0])]

/-- A candidate whose stem ties with the exact matches below. -/
def fooMp4 : MFile := ⟨[("foo.mp4")], 3⟩

/-- The first case-insensitive exact name match for entry `foo.avi`. -/
def fooAvi : MFile := ⟨[("foo.avi")], 3⟩

/-- A second case-insensitive exact name match for entry `foo.avi`. -/
def fooAviUp : MFile := ⟨[("FOO.avi")], 3⟩

/-- A size-filtered candidate list with two exact name matches. -/
def c4ms : List MFile := [fooMp4, fooAvi, fooAviUp]

/-- An ignored-name media file of size 5. -/
def thumbs : MFile := ⟨[("Thumbs.db")], 5⟩

/-- A media tree whose only file has an ignored name. -/
def c5tree : MediaTree := ⟨[thumbs], []⟩

/-- A media tree with one non-ignored file directly at the media root
(so the walk yields no directories at all). -/
def c6tree : MediaTree := ⟨[⟨[("a.txt")], 5⟩], []⟩

/-- A source file for the no-overwrite rename scenario. -/
def c7src : FPath := [("s")]

/-- An existing destination whose size differs from the source. -/
def c7dest : FPath := [("a.torrent")]

/-- The alternate sibling name `rename_name` produces for `c7dest` with
a source of size 3 — and a file of that name already exists. -/
def c7alt : FPath := [("a_3.torrent")]

/-- A filesystem where both the destination and its alternate name exist. -/
def c7fs : FS := [(c7src, [1, 1, 1]), (c7dest, [1, 1]), (c7alt, [9])]

/-- An ignored-name file of size 7 inside a matched folder. -/
def thumbs7 : MFile := ⟨[("d"), ("Thumbs.db")], 7⟩

/-- A media tree whose matched folder contains only `thumbs7`. -/
def c9tree : MediaTree := ⟨[thumbs7], [[("d")]]⟩

/-- A media tree with a two-file folder, for the multi-file matcher. -/
def c3tree : MediaTree := ⟨[⟨[("f"), ("a")], 3⟩, ⟨[("f"), ("b")], 4⟩], [[("f")]]⟩

/-- A two-entry manifest totalling 7 bytes. -/
def c3entries : List (FPath × Nat) := [([("a")], 3), ([("b")], 4)]

/-! ## General helper lemmas -/

theorem foldl_fixed {α β : Type} (f : β → α → β) (b : β) (l : List α)
    (h : ∀ x ∈ l, f b x = b) : l.foldl f b = b := by
  induction l with
  | nil => rfl
  | cons x xs ih =>
    simp only [List.foldl_cons, h x (List.mem_cons_self x xs)]
    exact ih fun y hy => h y (List.mem_cons_of_mem x hy)

theorem foldl_inv {α β : Type} (P : β → Prop) (f : β → α → β) (b : β) (l : List α)
    (hb : P b) (hstep : ∀ acc x, P acc → P (f acc x)) : P (l.foldl f b) := by
  induction l generalizing b with
  | nil => exact hb
  | cons x xs ih => exact ih (f b x) (hstep b x hb)

theorem fsLookup_write_self (fs : FS) (p : FPath) (c : Content) :
    fsLookup (fsWrite fs p c) p = some c := by
  induction fs with
  | nil => simp [fsWrite, fsLookup]
  | cons e rest ih =>
    by_cases h : e.1 = p
    · simp [fsWrite, fsLookup, h]
    · simp [fsWrite, fsLookup, h, ih]

theorem fsLookup_write_ne (fs : FS) (p q : FPath) (c : Content) (h : q ≠ p) :
    fsLookup (fsWrite fs p c) q = fsLookup fs q := by
  induction fs with
  | nil => simp [fsWrite, fsLookup, if_neg (Ne.symm h)]
  | cons e rest ih =>
    by_cases he : e.1 = p
    · have hw : fsWrite (e :: rest) p c = (p, c) :: rest := by simp [fsWrite, he]
      have heq : e.1 ≠ q := by rw [he]; exact Ne.symm h
      rw [hw]
      show (if p = q then some c else fsLookup rest q) = fsLookup (e :: rest) q
      rw [if_neg (Ne.symm h)]
      show fsLookup rest q = if e.1 = q then some e.2 else fsLookup rest q
      rw [if_neg heq]
    · have hw : fsWrite (e :: rest) p c = e :: fsWrite rest p c := by simp [fsWrite, he]
      rw [hw]
      show (if e.1 = q then some e.2 else fsLookup (fsWrite rest p c) q) = _
      show _ = if e.1 = q then some e.2 else fsLookup rest q
      rw [ih]

theorem fsWrite_of_lookup (fs : FS) (p : FPath) (c : Content)
    (h : fsLookup fs p = some c) : fsWrite fs p c = fs := by
  induction fs with
  | nil => simp [fsLookup] at h
  | cons e rest ih =>
    obtain ⟨e1, e2⟩ := e
    by_cases he : e1 = p
    · simp only [fsLookup, if_pos he] at h
      simp only [Option.some.injEq] at h
      simp [fsWrite, he, h]
    · simp only [fsLookup, if_neg he] at h
      simp [fsWrite, he, ih h]

theorem strData_append (a b : String) : (a ++ b).data = a.data ++ b.data := rfl

theorem strRemoveSuffix_spec (s suf : String) :
    strRemoveSuffix s suf = s ∨ (strRemoveSuffix s suf).data ++ suf.data = s.data := by
  unfold strRemoveSuffix
  split
  · rename_i h
    right
    obtain ⟨t, ht⟩ := List.isSuffixOf_iff_suffix.mp h
    have hlen : s.data.length - suf.data.length = t.length := by
      rw [← ht]; simp
    show (s.data.take (s.data.length - suf.data.length)) ++ suf.data = s.data
    rw [hlen, ← ht, List.take_left]
  · left; rfl

theorem rename_data (m : String) (n : Nat) :
    (rename_name m n).data =
      (strRemoveSuffix (strRemoveSuffix m (".torrent")) (".added")).data ++
        ('_' :: ((toString n).data ++ (".torrent").data)) := by
  have h1 : (("_") : String).data = ['_'] := rfl
  simp [rename_name, strData_append, h1]

theorem rename_ne (s : String) (n : Nat) : rename_name s n ≠ s := by
  intro h
  have hd : s.data =
      (strRemoveSuffix (strRemoveSuffix s (".torrent")) (".added")).data ++
        ('_' :: ((toString n).data ++ (".torrent").data)) := by
    conv_lhs => rw [← h]
    exact rename_data s n
  rcases strRemoveSuffix_spec s (".torrent") with h1 | h1 <;>
    rcases strRemoveSuffix_spec (strRemoveSuffix s (".torrent")) (".added") with h2 | h2
  · -- neither suffix stripped: appending a nonempty tail cannot give back s
    rw [h2, h1] at hd
    have hlen := congrArg List.length hd
    simp only [List.length_append, List.length_cons] at hlen
    omega
  · -- only ".added" stripped
    have hr : s.data =
        (strRemoveSuffix (strRemoveSuffix s (".torrent")) (".added")).data ++ (".added").data := by
      conv_lhs => rw [← h1]
      exact h2.symm
    have hx := List.append_cancel_left (hr.symm.trans hd)
    rw [(by rfl : ((".added") : String).data = ['.', 'a', 'd', 'd', 'e', 'd'])] at hx
    have h0 := congrArg (fun l => l.headD (' ')) hx
    simp only [List.headD_cons] at h0
    exact absurd h0 (by decide)
  · -- only ".torrent" stripped
    rw [h2] at hd
    have hr : s.data = (strRemoveSuffix s (".torrent")).data ++ (".torrent").data := h1.symm
    have hx := List.append_cancel_left (hr.symm.trans hd)
    rw [(by rfl : ((".torrent") : String).data = ['.', 't', 'o', 'r', 'r', 'e', 'n', 't'])] at hx
    have h0 := congrArg (fun l => l.headD (' ')) hx
    simp only [List.headD_cons] at h0
    exact absurd h0 (by decide)
  · -- both suffixes stripped
    have hr : s.data =
        (strRemoveSuffix (strRemoveSuffix s (".torrent")) (".added")).data ++
          ((".added").data ++ (".torrent").data) := by
      rw [← List.append_assoc, h2, h1]
    have hx := List.append_cancel_left (hr.symm.trans hd)
    rw [(by rfl : ((".added") : String).data = ['.', 'a', 'd', 'd', 'e', 'd'])] at hx
    have h0 := congrArg (fun l => l.headD (' ')) hx
    simp only [List.cons_append, List.headD_cons] at h0
    exact absurd h0 (by decide)

theorem withName_ne (p : FPath) (n : String) (h : n ≠ pathName p) : withName p n ≠ p := by
  intro he
  cases hp : p with
  | nil => rw [hp] at he; simp [withName] at he
  | cons a as =>
    have hne : p ≠ [] := by rw [hp]; simp
    have hdec := List.dropLast_append_getLast hne
    rw [← hdec] at he
    unfold withName at he
    rw [List.dropLast_append_getLast hne] at he
    conv_rhs at he => rw [← hdec]
    have := List.append_cancel_left he
    simp only [List.cons.injEq] at this
    apply h
    rw [this.1]
    unfold pathName
    rw [List.getLast?_eq_getLast p hne]
    rfl

/-! ## Claim C1 -/

/-- C1, counterexample: the collect-time per-entry filename equality test
(`tm.py` line 324) is *not* performed on NFC-normalized names: a
decomposed and a precomposed spelling of the same filename compare
unequal there, although their NFC forms are equal (and the comparison
would succeed on the normalized names). -/
theorem C1_counterexample :
    exact_name_match eNFD eNFC = false ∧
    exact_name_match (nfcStr eNFD) (nfcStr eNFC) = true ∧
    nfcStr eNFD = nfcStr eNFC := by decide

/-- C1, amended: every path derived from a torrent manifest and every
path derived from the filesystem walk is NFC-normalized before the
report's membership tests (so the report's missing-file test depends
only on the NFC forms of its inputs); the collect-time per-entry
filename comparisons, by contrast, operate on the raw, un-normalized
names. -/
theorem C1_report_normalizes :
    (∀ (p q : FPath) (walk walk' : List FPath),
      normalize_path p = normalize_path q →
      walk.map normalize_path = walk'.map normalize_path →
      report_missing_for p walk = report_missing_for q walk') ∧
    nfcStr eNFD = nfcStr eNFC ∧ exact_name_match eNFD eNFC = false := by
  refine ⟨?_, by decide, by decide⟩
  intro p q walk walk' hpq hw
  unfold report_missing_for get_media_files
  rw [hpq, hw]

/-- C1, witness: the report treats the decomposed and precomposed
spellings identically, both as the manifest entry and in the walk. -/
theorem C1_witness :
    report_missing_for [eNFD] [[eNFD]] = report_missing_for [eNFC] [[eNFC]] :=
  C1_report_normalizes.1 [eNFD] [eNFC] [[eNFD]] [[eNFC]] (by decide) (by decide)

/-! ## Claim C2 -/

/-- C2, counterexample: in no-overwrite mode, the second of two
identical `quick_copy` calls does *not* skip — it performs a second data
transfer to the same destination (the skip-if-same-size test at `tm.py`
line 79 is guarded by `overwrite`). -/
theorem C2_counterexample :
    (quick_copy c2fs c2src c2dest false true).2 = CopyOutcome.copied c2dest ∧
    (quick_copy (quick_copy c2fs c2src c2dest false true).1 c2src c2dest false true).2 =
      CopyOutcome.copied c2dest := by decide

/-- C2, amended: for a source distinct from the destination, with the
source present and the destination absent, in overwrite mode two
identical `quick_copy` calls perform exactly one data transfer — the
first copies, the second skips by the same-size rule — and the
destination's content (the source's content) is unchanged between the
calls.  In no-overwrite mode the second call instead re-copies the
identical data, which still leaves the destination's content
unchanged. -/
theorem C2_idempotence :
    ∀ (fs : FS) (src dest : FPath) (sc : Content),
      src ≠ dest →
      fsLookup fs src = some sc →
      fsLookup fs dest = none →
      quick_copy fs src dest true true = (fsWrite fs dest sc, CopyOutcome.copied dest) ∧
      quick_copy (fsWrite fs dest sc) src dest true true =
        (fsWrite fs dest sc, CopyOutcome.skippedSameSize) ∧
      fsLookup (fsWrite fs dest sc) dest = some sc ∧
      quick_copy fs src dest false true = (fsWrite fs dest sc, CopyOutcome.copied dest) ∧
      quick_copy (fsWrite fs dest sc) src dest false true =
        (fsWrite fs dest sc, CopyOutcome.copied dest) := by
  intro fs src dest sc hne hs hd
  have hds : fsLookup (fsWrite fs dest sc) dest = some sc := fsLookup_write_self fs dest sc
  have hss : fsLookup (fsWrite fs dest sc) src = some sc := by
    rw [fsLookup_write_ne fs dest src sc hne]; exact hs
  refine ⟨?_, ?_, hds, ?_, ?_⟩
  · simp [quick_copy, copyData, if_neg hne, hd, hs]
  · simp [quick_copy, copyData, if_neg hne, hds, hss]
  · simp [quick_copy, copyData, if_neg hne, hd, hs]
  · simp [quick_copy, copyData, if_neg hne, hds, hss,
      fsWrite_of_lookup (fsWrite fs dest sc) dest sc hds]

/-- C2, witness: the amended idempotence at a concrete filesystem. -/
theorem C2_witness :
    quick_copy (fsWrite c2fs c2dest [0, 0]) c2src c2dest true true =
      (fsWrite c2fs c2dest [0, 0], CopyOutcome.skippedSameSize) :=
  (C2_idempotence c2fs c2src c2dest [0, 0] (by decide) (by decide) (by decide)).2.1

/-! ## Claim C7 -/

/-- C7, counterexample: the alternate sibling name is not guaranteed
collision-free — when a file already exists under the computed alternate
name, `quick_copy` in no-overwrite mode overwrites it: here the existing
`a_3.torrent` (content `[9]`) is clobbered with the source's content. -/
theorem C7_counterexample :
    fsLookup c7fs c7alt = some [9] ∧
    fsLookup (quick_copy c7fs c7src c7dest false true).1 c7alt = some [1, 1, 1] := by decide

/-- C7, amended: in no-overwrite mode, when the destination exists with
a size different from the source's, the destination file itself is not
overwritten; the data is written to the alternate sibling name obtained
by stripping the `.torrent` and `.added` suffixes from the destination
name, appending an underscore and the source's byte size, and re-adding
the `.torrent` extension.  The original destination keeps its content,
but a file already existing under the alternate name is overwritten. -/
theorem C7_rename_on_size_mismatch :
    ∀ (fs : FS) (src dest : FPath) (sc dc : Content),
      src ≠ dest →
      fsLookup fs src = some sc →
      fsLookup fs dest = some dc →
      dc.length ≠ sc.length →
      quick_copy fs src dest false true =
        (fsWrite fs (withName dest (rename_name (pathName dest) sc.length)) sc,
          CopyOutcome.copied (withName dest (rename_name (pathName dest) sc.length))) ∧
      fsLookup (quick_copy fs src dest false true).1 dest = some dc := by
  intro fs src dest sc dc hne hs hd hsz
  have hmain : quick_copy fs src dest false true =
      (fsWrite fs (withName dest (rename_name (pathName dest) sc.length)) sc,
        CopyOutcome.copied (withName dest (rename_name (pathName dest) sc.length))) := by
    simp [quick_copy, copyData, if_neg hne, hd, hs, hsz]
  refine ⟨hmain, ?_⟩
  rw [hmain]
  show fsLookup (fsWrite fs (withName dest (rename_name (pathName dest) sc.length)) sc) dest = _
  rw [fsLookup_write_ne fs _ dest sc
    (Ne.symm (withName_ne dest _ (rename_ne (pathName dest) sc.length)))]
  exact hd

/-- C7, witness: the amended rename behaviour at a concrete filesystem
(the destination `a.torrent` keeps its content). -/
theorem C7_witness :
    fsLookup (quick_copy c7fs c7src c7dest false true).1 c7dest = some [1, 1] :=
  (C7_rename_on_size_mismatch c7fs c7src c7dest [1, 1, 1] [1, 1]
    (by decide) (by decide) (by decide) (by decide)).2

/-! ## Claim C8 -/

/-- C8: every filesystem error raised while performing an individual
copy is caught by `quick_copy`'s `try/except`, logged together with the
source and the destination, and never propagated: a vanished source (its
size or content cannot be read) and an injected copy-time failure
(permission denied, disk full, modelled by `copyOk = false`) both yield
the `errorLogged src dest` outcome with the filesystem unchanged, in
every mode. -/
theorem C8_errors_caught :
    ∀ (fs : FS) (src dest : FPath) (overwrite copyOk : Bool),
      src ≠ dest →
      (fsLookup fs src = none →
        quick_copy fs src dest overwrite copyOk = (fs, CopyOutcome.errorLogged src dest)) ∧
      (fsLookup fs dest = none →
        quick_copy fs src dest overwrite false = (fs, CopyOutcome.errorLogged src dest)) := by
  intro fs src dest ow ok hne
  constructor
  · intro hsrc
    unfold quick_copy
    rw [if_neg hne]
    cases hd : fsLookup fs dest with
    | none => simp [copyData, hsrc]
    | some dc => simp [hsrc]
  · intro hdest
    unfold quick_copy
    rw [if_neg hne, hdest]
    unfold copyData
    cases hs : fsLookup fs src with
    | none => rfl
    | some sc => simp

/-- C8, witness: a vanished source on an empty filesystem is caught and
logged. -/
theorem C8_witness :
    quick_copy [] c2src c2dest true true = ([], CopyOutcome.errorLogged c2src c2dest) :=
  (C8_errors_caught [] c2src c2dest true true (by decide)).1 (by decide)

/-! ## Matcher lemmas -/

theorem folderAgg_spec (files : List MFile) (d : FPath) :
    folderAgg files d =
      (((files.filter (keepFile d)).map MFile.size).sum, (files.filter (keepFile d)).length) := by
  have h : ∀ (fs : List MFile) (a b : Nat),
      fs.foldl (fun acc f => if keepFile d f then (acc.1 + f.size, acc.2 + 1) else acc) (a, b) =
        (a + ((fs.filter (keepFile d)).map MFile.size).sum,
          b + (fs.filter (keepFile d)).length) := by
    intro fs
    induction fs with
    | nil => intro a b; simp
    | cons f rest ih =>
      intro a b
      by_cases hf : keepFile d f
      · simp only [List.foldl_cons, if_pos hf, ih, List.filter_cons_of_pos hf, List.map_cons,
          List.sum_cons, List.length_cons]
        simp only [Prod.mk.injEq]
        omega
      · simp only [List.foldl_cons, if_neg hf, ih, List.filter_cons_of_neg hf]
  have h0 := h files 0 0
  simpa [folderAgg] using h0

theorem folder_stats_mem (t : MediaTree) (d : FPath) (sz cnt : Nat) :
    (d, sz, cnt) ∈ folder_stats t ↔
      d ∈ t.dirs ∧ (sz, cnt) = folderAgg t.files d ∧ 0 < cnt := by
  unfold folder_stats
  rw [List.mem_filterMap]
  constructor
  · rintro ⟨d', hd', hf⟩
    dsimp only at hf
    split at hf
    · rename_i hpos
      simp only [Option.some.injEq, Prod.mk.injEq] at hf
      obtain ⟨h1, h2, h3⟩ := hf
      subst h1
      refine ⟨hd', ?_, ?_⟩
      · rw [← h2, ← h3]
      · rw [← h3]; exact hpos
    · cases hf
  · rintro ⟨hd, hagg, hpos⟩
    refine ⟨d, hd, ?_⟩
    dsimp only
    rw [← hagg]
    rw [if_pos hpos]

theorem multi_matches_mem (t : MediaTree) (entries : List (FPath × Nat)) (tol : Nat)
    (d : FPath) :
    d ∈ multi_matches t entries tol ↔
      ∃ sz cnt, (d, sz, cnt) ∈ folder_stats t ∧
        sizeDiff sz (total_length entries) ≤ tol ∧ cnt = entries.length := by
  unfold multi_matches
  rw [List.mem_filterMap]
  constructor
  · rintro ⟨⟨d', sz, cnt⟩, he, hf⟩
    dsimp only at hf
    split at hf
    · rename_i hcond
      simp only [Option.some.injEq] at hf
      subst hf
      exact ⟨sz, cnt, he, hcond.1, hcond.2⟩
    · cases hf
  · rintro ⟨sz, cnt, hmem, h1, h2⟩
    refine ⟨(d, sz, cnt), hmem, ?_⟩
    dsimp only
    rw [if_pos ⟨h1, h2⟩]

theorem addToGroups_mem (groups : List (Nat × List MFile)) (x f : MFile) :
    (∃ g ∈ addToGroups groups x, f ∈ g.2) ↔ (∃ g ∈ groups, f ∈ g.2) ∨ f = x := by
  induction groups with
  | nil => simp [addToGroups]
  | cons g rest ih =>
    by_cases h : g.1 = x.size
    · simp only [addToGroups, if_pos h, List.mem_cons]
      constructor
      · rintro ⟨g', hg', hf⟩
        rcases hg' with hg' | hg'
        · subst hg'
          rcases List.mem_append.mp hf with hf | hf
          · exact Or.inl ⟨g, Or.inl rfl, hf⟩
          · simp only [List.mem_singleton] at hf
            exact Or.inr hf
        · exact Or.inl ⟨g', Or.inr hg', hf⟩
      · rintro (⟨g', hg', hf⟩ | hf)
        · rcases hg' with hg' | hg'
          · exact ⟨(g.1, g.2 ++ [x]), Or.inl rfl, List.mem_append.mpr (Or.inl (hg' ▸ hf))⟩
          · exact ⟨g', Or.inr hg', hf⟩
        · exact ⟨(g.1, g.2 ++ [x]), Or.inl rfl, by simp [hf]⟩
    · simp only [addToGroups, if_neg h, List.mem_cons]
      constructor
      · rintro ⟨g', hg', hf⟩
        rcases hg' with hg' | hg'
        · exact Or.inl ⟨g', Or.inl hg', hf⟩
        · rcases ih.mp ⟨g', hg', hf⟩ with ⟨g'', hg'', hf''⟩ | hx
          · exact Or.inl ⟨g'', Or.inr hg'', hf''⟩
          · exact Or.inr hx
      · rintro (⟨g', hg', hf⟩ | hf)
        · rcases hg' with hg' | hg'
          · exact ⟨g', Or.inl hg', hf⟩
          · obtain ⟨g'', hg'', hf''⟩ := ih.mpr (Or.inl ⟨g', hg', hf⟩)
            exact ⟨g'', Or.inr hg'', hf''⟩
        · obtain ⟨g'', hg'', hf''⟩ := ih.mpr (Or.inr hf)
          exact ⟨g'', Or.inr hg'', hf''⟩

theorem addToGroups_sizes (groups : List (Nat × List MFile)) (x : MFile)
    (h : ∀ g ∈ groups, ∀ f ∈ g.2, f.size = g.1) :
    ∀ g ∈ addToGroups groups x, ∀ f ∈ g.2, f.size = g.1 := by
  induction groups with
  | nil =>
    intro g hg f hf
    simp only [addToGroups, List.mem_singleton] at hg
    subst hg
    simp only [List.mem_singleton] at hf
    subst hf
    rfl
  | cons g0 rest ih =>
    intro g hg f hf
    by_cases hsz : g0.1 = x.size
    · simp only [addToGroups, if_pos hsz, List.mem_cons] at hg
      rcases hg with hg | hg
      · subst hg
        simp only at hf
        rcases List.mem_append.mp hf with hf | hf
        · exact h g0 (List.mem_cons_self g0 rest) f hf
        · simp only [List.mem_singleton] at hf
          subst hf
          exact hsz.symm
      · exact h g (List.mem_cons_of_mem g0 hg) f hf
    · simp only [addToGroups, if_neg hsz, List.mem_cons] at hg
      rcases hg with hg | hg
      · rw [hg]
        exact h g0 (List.mem_cons_self g0 rest) f (hg ▸ hf)
      · exact ih (fun g' hg' => h g' (List.mem_cons_of_mem g0 hg')) g hg f hf

theorem foldl_addToGroups_mem (l : List MFile) (gs : List (Nat × List MFile)) (f : MFile) :
    (∃ g ∈ l.foldl addToGroups gs, f ∈ g.2) ↔ (∃ g ∈ gs, f ∈ g.2) ∨ f ∈ l := by
  induction l generalizing gs with
  | nil => simp
  | cons x xs ih =>
    rw [List.foldl_cons, ih, addToGroups_mem, List.mem_cons]
    exact or_assoc

theorem media_by_size_mem (files : List MFile) (f : MFile) :
    (∃ g ∈ media_by_size files, f ∈ g.2) ↔
      f ∈ files ∧ is_ignored (fname f) = false := by
  unfold media_by_size
  rw [foldl_addToGroups_mem]
  simp [List.mem_filter]

theorem media_by_size_sizes (files : List MFile) :
    ∀ g ∈ media_by_size files, ∀ f ∈ g.2, f.size = g.1 := by
  unfold media_by_size
  generalize files.filter _ = l
  have h : ∀ (l : List MFile) (gs : List (Nat × List MFile)),
      (∀ g ∈ gs, ∀ f ∈ g.2, f.size = g.1) →
        ∀ g ∈ l.foldl addToGroups gs, ∀ f ∈ g.2, f.size = g.1 := by
    intro l
    induction l with
    | nil => intro gs hgs; exact hgs
    | cons x xs ih =>
      intro gs hgs
      exact ih (addToGroups gs x) (addToGroups_sizes gs x hgs)
  exact h l [] (by simp)

theorem single_matches_mem (t : MediaTree) (L tol : Nat) (f : MFile) :
    f ∈ single_matches t L tol ↔
      f ∈ t.files ∧ is_ignored (fname f) = false ∧ sizeDiff f.size L ≤ tol := by
  unfold single_matches
  have hfold : ∀ (groups : List (Nat × List MFile)),
      f ∈ groups.foldr (fun g acc => if sizeDiff g.1 L ≤ tol then g.2 ++ acc else acc) [] ↔
        ∃ g ∈ groups, sizeDiff g.1 L ≤ tol ∧ f ∈ g.2 := by
    intro groups
    induction groups with
    | nil => simp
    | cons g rest ih =>
      by_cases hc : sizeDiff g.1 L ≤ tol
      · simp only [List.foldr_cons, if_pos hc, List.mem_append, ih, List.mem_cons]
        constructor
        · rintro (hf | ⟨g', hg', hc', hf⟩)
          · exact ⟨g, Or.inl rfl, hc, hf⟩
          · exact ⟨g', Or.inr hg', hc', hf⟩
        · rintro ⟨g', hg' | hg', hc', hf⟩
          · subst hg'; exact Or.inl hf
          · exact Or.inr ⟨g', hg', hc', hf⟩
      · simp only [List.foldr_cons, if_neg hc, ih, List.mem_cons]
        constructor
        · rintro ⟨g', hg', hc', hf⟩
          exact ⟨g', Or.inr hg', hc', hf⟩
        · rintro ⟨g', hg' | hg', hc', hf⟩
          · subst hg'; exact absurd hc' hc
          · exact ⟨g', hg', hc', hf⟩
  rw [hfold]
  constructor
  · rintro ⟨g, hg, hc, hf⟩
    have hsz := media_by_size_sizes t.files g hg f hf
    have hmem := (media_by_size_mem t.files f).mp ⟨g, hg, hf⟩
    exact ⟨hmem.1, hmem.2, by rw [hsz]; exact hc⟩
  · rintro ⟨hmem, hig, hdiff⟩
    obtain ⟨g, hg, hf⟩ := (media_by_size_mem t.files f).mpr ⟨hmem, hig⟩
    have hsz := media_by_size_sizes t.files g hg f hf
    exact ⟨g, hg, by rw [← hsz]; exact hdiff, hf⟩

theorem size_matches_mem (t : MediaTree) (ms : List FPath) (L : Nat) (lf : MFile) :
    lf ∈ size_matches_for t ms L ↔
      (∃ mp ∈ ms, leadsTo mp lf.path = true) ∧ lf ∈ t.files ∧ lf.size = L := by
  unfold size_matches_for
  have hfold : ∀ (ms' : List FPath) (acc : List MFile),
      lf ∈ ms'.foldl
          (fun acc mp =>
            acc ++ t.files.filter (fun x => leadsTo mp x.path && x.size == L)) acc ↔
        lf ∈ acc ∨ ∃ mp ∈ ms', lf ∈ t.files.filter (fun x => leadsTo mp x.path && x.size == L) := by
    intro ms'
    induction ms' with
    | nil => simp
    | cons mp rest ih =>
      intro acc
      rw [List.foldl_cons, ih]
      simp only [List.mem_append, List.mem_cons]
      constructor
      · rintro ((h | h) | ⟨mp', hmp', h⟩)
        · exact Or.inl h
        · exact Or.inr ⟨mp, Or.inl rfl, h⟩
        · exact Or.inr ⟨mp', Or.inr hmp', h⟩
      · rintro (h | ⟨mp', hmp' | hmp', h⟩)
        · exact Or.inl (Or.inl h)
        · subst hmp'; exact Or.inl (Or.inr h)
        · exact Or.inr ⟨mp', hmp', h⟩
  rw [hfold]
  simp only [List.not_mem_nil, false_or, List.mem_filter, Bool.and_eq_true, beq_iff_eq]
  constructor
  · rintro ⟨mp, hmp, hmem, hlead, hsz⟩
    exact ⟨⟨mp, hmp, hlead⟩, hmem, hsz⟩
  · rintro ⟨⟨mp, hmp, hlead⟩, hmem, hsz⟩
    exact ⟨mp, hmp, hmem, hlead, hsz⟩

/-! ## Claim C3 -/

/-- C3: for a multi-file torrent (entry count at least 2), the matcher
returns folder candidates, and a folder recorded in `folder_stats` is a
candidate iff its non-ignored file count equals the entry count exactly
and the absolute difference between its aggregate size and the manifest
total is at most the tolerance. -/
theorem C3_multi_file_matching :
    ∀ (t : MediaTree) (e1 e2 : FPath × Nat) (es : List (FPath × Nat)) (tol : Nat)
      (d : FPath) (sz cnt : Nat),
      match_torrent t (e1 :: e2 :: es) tol =
        MatchResult.folderMatches (multi_matches t (e1 :: e2 :: es) tol) ∧
      ((d, sz, cnt) ∈ folder_stats t →
        (d ∈ multi_matches t (e1 :: e2 :: es) tol ↔
          cnt = (e1 :: e2 :: es).length ∧
            sizeDiff sz (total_length (e1 :: e2 :: es)) ≤ tol)) := by
  intro t e1 e2 es tol d sz cnt
  refine ⟨rfl, ?_⟩
  intro hmem
  rw [multi_matches_mem]
  constructor
  · rintro ⟨sz', cnt', hmem', h1, h2⟩
    have ha := (folder_stats_mem t d sz cnt).mp hmem
    have hb := (folder_stats_mem t d sz' cnt').mp hmem'
    have heq : (sz, cnt) = (sz', cnt') := ha.2.1.trans hb.2.1.symm
    simp only [Prod.mk.injEq] at heq
    rw [heq.1, heq.2]
    exact ⟨h2, h1⟩
  · rintro ⟨h2, h1⟩
    exact ⟨sz, cnt, hmem, h1, h2⟩

/-- C3, witness: a two-file folder of the right total size matches a
two-entry manifest. -/
theorem C3_witness :
    [("f")] ∈ multi_matches c3tree (([("a")], 3) :: ([("b")], 4) :: []) 0 :=
  ((C3_multi_file_matching c3tree ([("a")], 3) ([("b")], 4) [] 0 [("f")] 7 2).2
    (by decide)).mpr (by decide)

/-! ## Claim C5 -/

/-- C5, counterexample: for a single-file torrent of length 5 at
tolerance 0, the candidate set is *not* the set of all media files of
size 5 — an ignored-name file (`Thumbs.db`) of size 5 under the media
root yields an empty candidate set. -/
theorem C5_counterexample :
    thumbs ∈ c5tree.files ∧ thumbs.size = 5 ∧
    match_torrent c5tree [([("x")], 5)] 0 = MatchResult.fileMatches [] := by decide

/-- C5, amended: for a single-file torrent whose entry has length `L`,
at size tolerance 0, the matcher's candidate set equals exactly the set
of *non-ignored* media files under the media root whose size is exactly
`L`. -/
theorem C5_single_file_matching :
    ∀ (t : MediaTree) (p : FPath) (L : Nat) (f : MFile),
      match_torrent t [(p, L)] 0 = MatchResult.fileMatches (single_matches t L 0) ∧
      (f ∈ single_matches t L 0 ↔
        f ∈ t.files ∧ is_ignored (fname f) = false ∧ f.size = L) := by
  intro t p L f
  refine ⟨rfl, ?_⟩
  rw [single_matches_mem]
  have hz : sizeDiff f.size L ≤ 0 ↔ f.size = L := by
    unfold sizeDiff
    rw [Nat.le_zero, Int.natAbs_eq_zero, sub_eq_zero, Int.natCast_inj]
  rw [hz]

/-! ## Claim C6 -/

/-- C6, counterexample: the media root contains a non-ignored file, yet
`folder_stats` is empty — the walk `media_dir.rglob("*")` never yields
the media root itself, so the root never appears in the folder
statistics (and can never match a multi-file torrent). -/
theorem C6_counterexample :
    (∃ f ∈ c6tree.files, is_ignored (fname f) = false) ∧ folder_stats c6tree = [] := by decide

/-- C6, amended: the aggregate of a folder accumulates exactly the sizes
and the count of the non-ignored files in its full recursive subtree,
and a folder appears in `folder_stats` iff it is one of the walked
directories (all strict descendants of the media root — the root itself,
the empty relative path, never appears) with a positive non-ignored file
count; directories with a file count of 0 are omitted. -/
theorem C6_folder_stats_characterization :
    ∀ (t : MediaTree) (d : FPath) (sz cnt : Nat),
      folderAgg t.files d =
        (((t.files.filter (keepFile d)).map MFile.size).sum,
          (t.files.filter (keepFile d)).length) ∧
      ([] ∉ t.dirs →
        (((d, sz, cnt) ∈ folder_stats t) ↔
          (d ∈ t.dirs ∧ (sz, cnt) = folderAgg t.files d ∧ 0 < cnt)) ∧
        (∀ x y : Nat, ([], x, y) ∉ folder_stats t)) := by
  intro t d sz cnt
  refine ⟨folderAgg_spec t.files d, fun hroot => ⟨folder_stats_mem t d sz cnt, ?_⟩⟩
  intro x y hmem
  exact hroot ((folder_stats_mem t [] x y).mp hmem).1

/-- C6, witness: the characterization applied to a concrete tree whose
walked directories exclude the root. -/
theorem C6_witness :
    (([("f")], 7, 2) ∈ folder_stats c3tree) ↔
      ([("f")] ∈ c3tree.dirs ∧ ((7 : Nat), (2 : Nat)) = folderAgg c3tree.files [("f")] ∧
        (0 : Nat) < 2) :=
  ((C6_folder_stats_characterization c3tree [("f")] 7 2).2 (by decide)).1

/-! ## Claim C9 -/

/-- C9: the per-entry candidate gathering of the collect phase includes
*every* file of the matching size under a matched folder — there is no
`is_ignored` filter — so a file with an ignored name (here `Thumbs.db`)
of the right size is a candidate and is in fact the chosen copy
source. -/
theorem C9_ignored_files_are_candidates :
    (∀ (t : MediaTree) (ms : List FPath) (L : Nat) (lf : MFile),
      lf ∈ size_matches_for t ms L ↔
        (∃ mp ∈ ms, leadsTo mp lf.path = true) ∧ lf ∈ t.files ∧ lf.size = L) ∧
    size_matches_for c9tree [[("d")]] 7 = [thumbs7] ∧
    is_ignored (fname thumbs7) = true ∧
    pick_candidate ("x.bin") (size_matches_for c9tree [[("d")]] 7) = some thumbs7 := by
  have hsm : size_matches_for c9tree [[("d")]] 7 = [thumbs7] := by decide
  refine ⟨size_matches_mem, hsm, by decide, ?_⟩
  rw [hsm]
  have hflt : List.filter (isExactFor ("x.bin")) [thumbs7] = [] := by decide
  unfold pick_candidate
  rw [hflt]
  simp [argmaxFirst]

/-! ## Similarity lemmas -/

theorem commonPrefixLen_self (l : List Char) : commonPrefixLen l l = l.length := by
  induction l with
  | nil => rfl
  | cons c cs ih => simp [commonPrefixLen, ih]

theorem commonPrefixLen_le_left (a b : List Char) : commonPrefixLen a b ≤ a.length := by
  induction a generalizing b with
  | nil => cases b <;> simp [commonPrefixLen]
  | cons x xs ih =>
    cases b with
    | nil => simp [commonPrefixLen]
    | cons y ys =>
      simp only [commonPrefixLen, List.length_cons]
      split
      · exact Nat.succ_le_succ (ih ys)
      · exact Nat.zero_le _

theorem commonPrefixLen_le_right (a b : List Char) : commonPrefixLen a b ≤ b.length := by
  induction a generalizing b with
  | nil => cases b <;> simp [commonPrefixLen]
  | cons x xs ih =>
    cases b with
    | nil => simp [commonPrefixLen]
    | cons y ys =>
      simp only [commonPrefixLen, List.length_cons]
      split
      · exact Nat.succ_le_succ (ih ys)
      · exact Nat.zero_le _

theorem longest_match_self (l : List Char) : longest_match l l = (0, 0, l.length) := by
  unfold longest_match
  rw [commonPrefixLen_self]
  apply foldl_fixed
  intro p hp
  have hk : commonPrefixLen (l.drop p.1) (l.drop p.2) ≤ l.length := by
    have h1 := commonPrefixLen_le_left (l.drop p.1) (l.drop p.2)
    rw [List.length_drop] at h1
    omega
  exact if_neg (not_lt.mpr hk)

theorem longest_match_bounds (a b : List Char) :
    (longest_match a b).1 + (longest_match a b).2.2 ≤ a.length ∧
      (longest_match a b).2.1 + (longest_match a b).2.2 ≤ b.length := by
  unfold longest_match
  apply foldl_inv
    (fun best : Nat × Nat × Nat =>
      best.1 + best.2.2 ≤ a.length ∧ best.2.1 + best.2.2 ≤ b.length)
  · constructor
    · simpa using commonPrefixLen_le_left a b
    · simpa using commonPrefixLen_le_right a b
  · intro acc p hacc
    by_cases hc : acc.2.2 < commonPrefixLen (a.drop p.1) (b.drop p.2)
    · have hka := commonPrefixLen_le_left (a.drop p.1) (b.drop p.2)
      have hkb := commonPrefixLen_le_right (a.drop p.1) (b.drop p.2)
      rw [List.length_drop] at hka
      rw [List.length_drop] at hkb
      show ((if acc.2.2 < commonPrefixLen (a.drop p.1) (b.drop p.2) then
          (p.1, p.2, commonPrefixLen (a.drop p.1) (b.drop p.2)) else acc) :
            Nat × Nat × Nat).1 + _ ≤ _ ∧ _
      rw [if_pos hc]
      constructor <;> simp only [] <;> omega
    · show ((if acc.2.2 < commonPrefixLen (a.drop p.1) (b.drop p.2) then
          (p.1, p.2, commonPrefixLen (a.drop p.1) (b.drop p.2)) else acc) :
            Nat × Nat × Nat).1 + _ ≤ _ ∧ _
      rw [if_neg hc]
      exact hacc

theorem totalMatchesFuel_nil (fuel : Nat) : totalMatchesFuel fuel [] [] = 0 := by
  cases fuel <;> rfl

theorem totalMatchesFuel_le (fuel : Nat) :
    ∀ (a b : List Char), totalMatchesFuel fuel a b ≤ min a.length b.length := by
  induction fuel with
  | zero => intro a b; simp [totalMatchesFuel]
  | succ fuel ih =>
    intro a b
    have hbounds := longest_match_bounds a b
    rcases hm : longest_match a b with ⟨i, j, k⟩
    rw [hm] at hbounds
    simp only at hbounds
    simp only [totalMatchesFuel]
    rw [hm]
    simp only
    by_cases hk : k = 0
    · rw [if_pos hk]
      exact Nat.zero_le _
    · rw [if_neg hk]
      have h1 := ih (a.take i) (b.take j)
      have h2 := ih (a.drop (i + k)) (b.drop (j + k))
      rw [List.length_take, List.length_take] at h1
      rw [List.length_drop, List.length_drop] at h2
      have h1i : totalMatchesFuel fuel (a.take i) (b.take j) ≤ i :=
        le_trans h1 (le_trans (min_le_left _ _) (min_le_left _ _))
      have h1j : totalMatchesFuel fuel (a.take i) (b.take j) ≤ j :=
        le_trans h1 (le_trans (min_le_right _ _) (min_le_left _ _))
      have h2a : totalMatchesFuel fuel (a.drop (i + k)) (b.drop (j + k)) ≤
          a.length - (i + k) := le_trans h2 (min_le_left _ _)
      have h2b : totalMatchesFuel fuel (a.drop (i + k)) (b.drop (j + k)) ≤
          b.length - (j + k) := le_trans h2 (min_le_right _ _)
      rw [Nat.le_min]
      constructor <;> omega

theorem totalMatches_self (l : List Char) : totalMatches l l = l.length := by
  show totalMatchesFuel (l.length + l.length + 1) l l = l.length
  simp only [totalMatchesFuel]
  rw [longest_match_self]
  simp only
  by_cases hL : l.length = 0
  · rw [if_pos hL]
    omega
  · rw [if_neg hL, List.take_zero, Nat.zero_add, List.drop_length, totalMatchesFuel_nil]
    omega

theorem seq_ratio_self (l : List Char) : seq_ratio l l = 1 := by
  unfold seq_ratio
  by_cases h : l.length + l.length = 0
  · rw [if_pos h]
  · rw [if_neg h, totalMatches_self]
    have hL : (0 : ℚ) < (l.length : ℚ) := by
      have h0 : 0 < l.length := by omega
      exact_mod_cast h0
    field_simp
    ring

theorem seq_ratio_nonneg (a b : List Char) : 0 ≤ seq_ratio a b := by
  unfold seq_ratio
  split
  · norm_num
  · apply div_nonneg
    · positivity
    · positivity

theorem seq_ratio_le_one (a b : List Char) : seq_ratio a b ≤ 1 := by
  unfold seq_ratio
  split
  · norm_num
  · rename_i h
    have hM := totalMatchesFuel_le (a.length + b.length + 1) a b
    rw [Nat.le_min] at hM
    have hpos : (0 : ℚ) < (a.length : ℚ) + (b.length : ℚ) := by
      have h0 : 0 < a.length + b.length := Nat.pos_of_ne_zero h
      exact_mod_cast h0
    rw [div_le_one hpos]
    have h2 : 2 * totalMatches a b ≤ a.length + b.length := by
      have ha := hM.1
      have hb := hM.2
      unfold totalMatches
      omega
    exact_mod_cast h2

theorem argmaxFirst_eq_none (l : List (MFile × ℚ)) (h : argmaxFirst l = none) : l = [] := by
  cases l with
  | nil => rfl
  | cons p rest =>
    exfalso
    simp only [argmaxFirst] at h
    cases h2 : argmaxFirst rest with
    | none => rw [h2] at h; cases h
    | some q =>
      rw [h2] at h
      have h' : (if p.2 < q.2 then some q else some p) = (none : Option (MFile × ℚ)) := h
      by_cases hc : p.2 < q.2
      · rw [if_pos hc] at h'; cases h'
      · rw [if_neg hc] at h'; cases h'

theorem argmax_map_spec (tf : String) :
    ∀ (ms : List MFile) (c : MFile) (s : ℚ),
      argmaxFirst (ms.map (fun lf => (lf, name_similarity tf (fname lf)))) = some (c, s) →
      s = name_similarity tf (fname c) ∧
        ∃ pre post, ms = pre ++ c :: post ∧
          (∀ x ∈ pre, name_similarity tf (fname x) < s) ∧
          (∀ x ∈ ms, name_similarity tf (fname x) ≤ s) := by
  intro ms
  induction ms with
  | nil => intro c s h; cases h
  | cons m rest ih =>
    intro c s h
    simp only [List.map_cons, argmaxFirst] at h
    cases hrec : argmaxFirst (rest.map (fun lf => (lf, name_similarity tf (fname lf)))) with
    | none =>
      rw [hrec] at h
      have hnil : rest.map (fun lf => (lf, name_similarity tf (fname lf))) = [] :=
        argmaxFirst_eq_none _ hrec
      have hrest : rest = [] := List.map_eq_nil_iff.mp hnil
      simp only [Option.some.injEq, Prod.mk.injEq] at h
      obtain ⟨hc, hs⟩ := h
      subst hc
      refine ⟨hs.symm, [], rest, rfl, by simp, ?_⟩
      intro x hx
      rw [hrest] at hx
      simp only [List.mem_singleton] at hx
      subst hx
      rw [← hs]
    | some q =>
      obtain ⟨c', s'⟩ := q
      rw [hrec] at h
      have h' : (if name_similarity tf (fname m) < s' then some (c', s')
          else some (m, name_similarity tf (fname m))) = some (c, s) := h
      clear h
      obtain ⟨hs', pre', post', hdec', hlt', hle'⟩ := ih c' s' hrec
      by_cases hc : (name_similarity tf (fname m)) < s'
      · rw [if_pos hc] at h'
        simp only [Option.some.injEq, Prod.mk.injEq] at h'
        obtain ⟨hcc, hss⟩ := h'
        subst hcc
        subst hss
        refine ⟨hs', m :: pre', post', by rw [hdec']; rfl, ?_, ?_⟩
        · intro x hx
          rcases List.mem_cons.mp hx with hx | hx
          · rw [hx]; exact hc
          · exact hlt' x hx
        · intro x hx
          rcases List.mem_cons.mp hx with hx | hx
          · rw [hx]; exact le_of_lt hc
          · exact hle' x hx
      · rw [if_neg hc] at h'
        simp only [Option.some.injEq, Prod.mk.injEq] at h'
        obtain ⟨hcc, hss⟩ := h'
        subst hcc
        subst hss
        refine ⟨rfl, [], rest, rfl, by simp, ?_⟩
        intro x hx
        rcases List.mem_cons.mp hx with hx | hx
        · rw [hx]
        · exact le_trans (hle' x hx) (not_lt.mp hc)

theorem seq_ratio_val (a b : List Char) (M A B : Nat)
    (hM : totalMatches a b = M) (hA : a.length = A) (hB : b.length = B) (h0 : A + B ≠ 0) :
    seq_ratio a b = (2 * (M : ℚ)) / ((A : ℚ) + (B : ℚ)) := by
  unfold seq_ratio
  rw [hM, hA, hB, if_neg h0]

theorem sim_fooMp4 : name_similarity ("foo.avi") (fname fooMp4) = 1 := by
  show seq_ratio (normName ("foo.avi")) (normName (fname fooMp4)) = 1
  rw [seq_ratio_val _ _ 3 3 3 (by decide) (by decide) (by decide) (by decide)]
  norm_num

theorem sim_fooAvi : name_similarity ("foo.avi") (fname fooAvi) = 1 := by
  show seq_ratio (normName ("foo.avi")) (normName (fname fooAvi)) = 1
  rw [seq_ratio_val _ _ 3 3 3 (by decide) (by decide) (by decide) (by decide)]
  norm_num

theorem sim_fooAviUp : name_similarity ("foo.avi") (fname fooAviUp) = 1 := by
  show seq_ratio (normName ("foo.avi")) (normName (fname fooAviUp)) = 1
  rw [seq_ratio_val _ _ 3 3 3 (by decide) (by decide) (by decide) (by decide)]
  norm_num

/-! ## Claim C4 -/

/-- C4, counterexample: with two case-insensitive exact name matches in
the size-filtered set (plus an earlier candidate whose stem ties at
score 1), the code chooses the *first exact match* (`foo.avi`), whereas
the claim's rule ("exactly one exact match, otherwise highest-score")
prescribes the fuzzy route, whose first-seen top scorer is `foo.mp4`. -/
theorem C4_counterexample :
    pick_candidate ("foo.avi") c4ms = some fooAvi ∧
    pick_candidate_claimed ("foo.avi") c4ms = some fooMp4 ∧
    fooAvi ≠ fooMp4 := by
  refine ⟨by decide, ?_, by decide⟩
  show pick_candidate_claimed ("foo.avi") (fooMp4 :: [fooAvi, fooAviUp]) = some fooMp4
  have hfil : (fooMp4 :: [fooAvi, fooAviUp]).filter (isExactFor ("foo.avi")) =
      [fooAvi, fooAviUp] := by decide
  unfold pick_candidate_claimed
  rw [hfil]
  show (match argmaxFirst ((fooMp4 :: [fooAvi, fooAviUp]).map
      (fun lf => (lf, name_similarity ("foo.avi") (fname lf)))) with
    | some q => some (if (11 : ℚ) / 20 < q.2 then q.1 else fooMp4)
    | none => some fooMp4) = some fooMp4
  simp only [List.map_cons, List.map_nil, sim_fooMp4, sim_fooAvi, sim_fooAviUp]
  have ha1 : argmaxFirst [(fooAviUp, (1 : ℚ))] = some (fooAviUp, 1) := rfl
  have ha2 : argmaxFirst [(fooAvi, (1 : ℚ)), (fooAviUp, 1)] = some (fooAvi, 1) := by
    show (match argmaxFirst [(fooAviUp, (1 : ℚ))] with
      | none => some (fooAvi, (1 : ℚ))
      | some q => if ((fooAvi, (1 : ℚ)) : MFile × ℚ).2 < q.2 then some q
          else some (fooAvi, (1 : ℚ))) = some (fooAvi, 1)
    rw [ha1]
    show (if (1 : ℚ) < 1 then some (fooAviUp, (1 : ℚ)) else some (fooAvi, 1)) = some (fooAvi, 1)
    rw [if_neg (by norm_num)]
  have ha3 : argmaxFirst [(fooMp4, (1 : ℚ)), (fooAvi, 1), (fooAviUp, 1)] =
      some (fooMp4, 1) := by
    show (match argmaxFirst [(fooAvi, (1 : ℚ)), (fooAviUp, 1)] with
      | none => some (fooMp4, (1 : ℚ))
      | some q => if ((fooMp4, (1 : ℚ)) : MFile × ℚ).2 < q.2 then some q
          else some (fooMp4, (1 : ℚ))) = some (fooMp4, 1)
    rw [ha2]
    show (if (1 : ℚ) < 1 then some (fooAvi, (1 : ℚ)) else some (fooMp4, 1)) = some (fooMp4, 1)
    rw [if_neg (by norm_num)]
  rw [ha3]
  show some (if (11 : ℚ) / 20 < 1 then fooMp4 else fooMp4) = some fooMp4
  rw [if_pos (by norm_num)]

/-- C4, amended: for a non-empty size-filtered candidate set, the code
chooses a candidate as follows — if *at least one* candidate's filename
equals the entry's filename case-insensitively, the first such candidate
(in input order) is chosen; otherwise the candidate with the highest
similarity score is chosen when that score exceeds 0.55 (ties resolved
in favor of the first-seen candidate), and otherwise the first candidate
of the size-filtered set is chosen. -/
theorem C4_resolution :
    ∀ (tfName : String) (m0 : MFile) (rest : List MFile),
      ∃ c, pick_candidate tfName (m0 :: rest) = some c ∧ c ∈ m0 :: rest ∧
        (((m0 :: rest).filter (isExactFor tfName)) ≠ [] →
          ∃ pre post, m0 :: rest = pre ++ c :: post ∧ isExactFor tfName c = true ∧
            ∀ x ∈ pre, isExactFor tfName x = false) ∧
        (((m0 :: rest).filter (isExactFor tfName)) = [] →
          (((11 : ℚ) / 20 < name_similarity tfName (fname c) ∧
              (∃ pre post, m0 :: rest = pre ++ c :: post ∧
                ∀ x ∈ pre,
                  name_similarity tfName (fname x) < name_similarity tfName (fname c)) ∧
              (∀ x ∈ m0 :: rest,
                name_similarity tfName (fname x) ≤ name_similarity tfName (fname c))) ∨
            (c = m0 ∧
              ∀ x ∈ m0 :: rest, name_similarity tfName (fname x) ≤ (11 : ℚ) / 20))) := by
  intro tf m0 rest
  cases hfil : (m0 :: rest).filter (isExactFor tf) with
  | cons e es =>
    have hpc : pick_candidate tf (m0 :: rest) = some e := by
      unfold pick_candidate
      rw [hfil]
    obtain ⟨l1, l2, hdec, hpre, hpe, _⟩ := List.filter_eq_cons_iff.mp hfil
    refine ⟨e, hpc, ?_, ?_, ?_⟩
    · rw [hdec]
      exact List.mem_append.mpr (Or.inr (List.mem_cons_self _ _))
    · intro _
      exact ⟨l1, l2, hdec, hpe, fun x hx => by simpa using hpre x hx⟩
    · intro h0
      exact absurd h0 (List.cons_ne_nil e es)
  | nil =>
    cases hmax : argmaxFirst ((m0 :: rest).map (fun lf => (lf, name_similarity tf (fname lf))))
      with
    | none =>
      exfalso
      have := argmaxFirst_eq_none _ hmax
      simp at this
    | some q =>
      obtain ⟨c0, s0⟩ := q
      obtain ⟨hs0, pre, post, hdec, hlt, hle⟩ := argmax_map_spec tf (m0 :: rest) c0 s0 hmax
      have hpc : pick_candidate tf (m0 :: rest) =
          some (if (11 : ℚ) / 20 < s0 then c0 else m0) := by
        unfold pick_candidate
        rw [hfil, hmax]
      by_cases hth : (11 : ℚ) / 20 < s0
      · refine ⟨c0, by rw [hpc, if_pos hth], ?_, fun hne => absurd rfl hne, fun _ => ?_⟩
        · rw [hdec]
          exact List.mem_append.mpr (Or.inr (List.mem_cons_self _ _))
        · refine Or.inl ⟨hs0 ▸ hth, ⟨pre, post, hdec, fun x hx => hs0 ▸ hlt x hx⟩,
            fun x hx => hs0 ▸ hle x hx⟩
      · refine ⟨m0, by rw [hpc, if_neg hth], List.mem_cons_self _ _,
          fun hne => absurd rfl hne, fun _ => Or.inr ⟨rfl, ?_⟩⟩
        intro x hx
        exact le_trans (hle x hx) (not_lt.mp hth)

/-- C4, witness: the resolution applied to a singleton candidate set
with an exact name match. -/
theorem C4_witness :
    ∃ c, pick_candidate ("a.bin") [⟨[("a.bin")], 1⟩] = some c ∧
      c ∈ [(⟨[("a.bin")], 1⟩ : MFile)] := by
  obtain ⟨c, h1, h2, _⟩ := C4_resolution ("a.bin") ⟨[("a.bin")], 1⟩ []
  exact ⟨c, h1, h2⟩

/-! ## Claim C10 -/

/-- C10: `name_similarity` is reflexive at value 1, and every similarity
score lies in the closed unit interval (scores are modelled exactly in
`ℚ`; the source computes the same ratio in floating point). -/
theorem C10_similarity_unit_interval :
    ∀ (a b : String),
      name_similarity a a = 1 ∧ 0 ≤ name_similarity a b ∧ name_similarity a b ≤ 1 := by
  intro a b
  refine ⟨?_, ?_, ?_⟩
  · show seq_ratio (normName a) (normName a) = 1
    exact seq_ratio_self (normName a)
  · show (0 : ℚ) ≤ seq_ratio (normName a) (normName b)
    exact seq_ratio_nonneg _ _
  · show seq_ratio (normName a) (normName b) ≤ 1
    exact seq_ratio_le_one _ _

end TorrentMatch
